import Mathlib

/-!
Shallow embedding of the metaplace operations dashboard (src/app.py),
covering the transaction-log aggregation in the `transactions` view and
the build-status fold and transition detection in `get_build`.

Conventions: Python `datetime` values are embedded as proleptic-Gregorian
calendar fields; timestamp differences (`timedelta.total_seconds()`) are
integers of seconds, since the fixed parse format carries no sub-second
part.  Python floats and `Decimal` values are embedded as `ℚ`; the
`'%.2f'` formatting is embedded as rounding the rational to a hundredth
(round half up; the theorems below never evaluate it at a tie) and
printing with exactly two fractional digits.  A `ValueError` raised by
`datetime.strptime` or an `InvalidOperation` from `Decimal` propagates
out of the row loop, which is embedded as `Except.error`.
-/

/-- A raw CSV row as handed to the loop body by `csv.DictReader`.  Only the
columns the aggregation reads are kept; the `id` column is never used. -/
structure Row where
  created : String
  modified : String
  status : String
  currency : String
  amount : String
deriving DecidableEq

/-- The parsed fields of a timestamp, as produced by
`datetime.strptime(s, '%Y-%m-%dT%H:%M:%S')`. -/
structure DateTime where
  year : Nat
  month : Nat
  day : Nat
  hour : Nat
  minute : Nat
  second : Nat
deriving DecidableEq

def isDigitChar (c : Char) : Bool :=
  48 ≤ c.toNat && c.toNat ≤ 57

def digitsToNat (cs : List Char) : Nat :=
  cs.foldl (fun n c => n * 10 + (c.toNat - 48)) 0

/-- Split a character list at every occurrence of `c` (the pieces keep
their order and drop the separator), like `str.split` on one character. -/
def splitChar (c : Char) : List Char → List (List Char)
  | [] => [[]]
  | x :: xs =>
    let r := splitChar c xs
    if x = c then [] :: r
    else
      match r with
      | [] => [[x]]
      | y :: ys => (x :: y) :: ys

/-- A numeric field of the fixed timestamp format: non-empty, all digits,
at most `maxLen` digits (the regex `strptime` builds for `%Y` accepts up
to four digits and for the other directives up to two). -/
def parseNum (maxLen : Nat) (cs : List Char) : Option Nat :=
  if cs ≠ [] ∧ cs.length ≤ maxLen ∧ cs.all isDigitChar then
    some (digitsToNat cs)
  else none

def isLeap (y : Nat) : Bool :=
  y % 4 == 0 && (y % 100 != 0 || y % 400 == 0)

def daysInMonth (y m : Nat) : Nat :=
  match m with
  | 1 => 31
  | 2 => if isLeap y then 29 else 28
  | 3 => 31
  | 4 => 30
  | 5 => 31
  | 6 => 30
  | 7 => 31
  | 8 => 31
  | 9 => 30
  | 10 => 31
  | 11 => 30
  | 12 => 31
  | _ => 0

/-- `datetime.strptime(s, '%Y-%m-%dT%H:%M:%S')`: the literal separators
must match exactly, every field must be numeric, and the `datetime`
constructor then validates the ranges (year 1..9999, month 1..12, day
1..days in month, hour 0..23, minute 0..59, second 0..59).  Any failure
raises `ValueError`, embedded as `none`. -/
def strptime (s : String) : Option DateTime :=
  match splitChar 'T' s.toList with
  | [d, t] =>
    match splitChar '-' d, splitChar ':' t with
    | [ys, ms, ds], [hs, mis, ss] =>
      match parseNum 4 ys, parseNum 2 ms, parseNum 2 ds,
            parseNum 2 hs, parseNum 2 mis, parseNum 2 ss with
      | some y, some mo, some da, some h, some mi, some se =>
        if 1 ≤ y ∧ y ≤ 9999 ∧ 1 ≤ mo ∧ mo ≤ 12 ∧ 1 ≤ da ∧
            da ≤ daysInMonth y mo ∧ h ≤ 23 ∧ mi ≤ 59 ∧ se ≤ 59 then
          some ⟨y, mo, da, h, mi, se⟩
        else none
      | _, _, _, _, _, _ => none
    | _, _ => none
  | _ => none

/-- Day count of a proleptic-Gregorian date, with an arbitrary fixed
epoch; only differences of the values matter, matching
`datetime.__sub__` via `toordinal`.  On the validated domain
(year ≥ 1) every intermediate quantity is non-negative, so truncating
integer division coincides with floor division. -/
def daysFromCivil (y m d : ℤ) : ℤ :=
  let yy : ℤ := if m ≤ 2 then y - 1 else y
  let era : ℤ := yy / 400
  let yoe : ℤ := yy - era * 400
  let mp : ℤ := (m + 9) % 12
  let doy : ℤ := (153 * mp + 2) / 5 + d - 1
  let doe : ℤ := yoe * 365 + yoe / 4 - yoe / 100 + doy
  era * 146097 + doe - 719468

/-- Seconds elapsed at `dt` since the fixed epoch, so that
`epochSecs m - epochSecs c` is `(modified - created).total_seconds()`. -/
def epochSecs (dt : DateTime) : ℤ :=
  daysFromCivil (dt.year : ℤ) (dt.month : ℤ) (dt.day : ℤ) * 86400 +
    (dt.hour : ℤ) * 3600 + (dt.minute : ℤ) * 60 + (dt.second : ℤ)

/-- `'%.2f' % q` as an integer number of hundredths: round to the nearest
hundredth, half up.  The development never evaluates it at a tie, where
the binary `'%.2f'` could differ. -/
def hundredths (q : ℚ) : ℤ :=
  ⌊q * 100 + 1 / 2⌋

/-- The value actually denoted by the `'%.2f'` output, as a rational. -/
def round2 (q : ℚ) : ℚ :=
  (hundredths q : ℚ) / 100

/-- `'%.2f' % q` as a string with exactly two fractional digits. -/
def fmt2 (q : ℚ) : String :=
  let n : ℤ := hundredths q
  let sign : String := if n < 0 then "-" else ""
  let m : Nat := n.natAbs
  sign ++ toString (m / 100) ++ "." ++
    (if m % 100 < 10 then "0" else "") ++ toString (m % 100)

/-- `Decimal(s)`: optional sign, an integer part and an optional
fractional part, at least one digit in all.  (Exponent forms, which never
occur in the log amounts, are not modelled.)  A failure raises, embedded
as `none`. -/
def parseDecimal (s : String) : Option ℚ :=
  let cs := s.toList
  let signAndRest : ℚ × List Char :=
    match cs with
    | '-' :: rest => (-1, rest)
    | '+' :: rest => (1, rest)
    | _ => (1, cs)
  let sign := signAndRest.1
  let body := signAndRest.2
  let intPart := body.takeWhile isDigitChar
  let rest := body.dropWhile isDigitChar
  match rest with
  | [] => if intPart = [] then none else some (sign * (digitsToNat intPart : ℚ))
  | '.' :: frac =>
    if frac.all isDigitChar ∧ (intPart ≠ [] ∨ frac ≠ []) then
      some (sign * ((digitsToNat intPart : ℚ) +
        (digitsToNat frac : ℚ) / (10 : ℚ) ^ frac.length))
    else none
  | _ => none

/-- The accumulator built up by the row loop of the `transactions` view:
`stats['diff']`, `stats['status']`, `stats['currencies']` (before the
grouping step), and the length of `rows`. -/
structure LoopState where
  diffs : List ℤ
  statusList : List String
  currencyPairs : List (String × ℚ)
  rowCount : Nat
deriving DecidableEq

/-- One iteration of the row loop.  `strptime` failures on `created` or
`modified` and `Decimal` failures on a non-empty `amount` raise, which
aborts the whole loop (`Except.error`).  A zero `row['diff']` is falsy as
a `timedelta`, so it is not appended to `stats['diff']`; the status is
appended unconditionally; the `(currency, amount)` pair is appended when
both strings are non-empty (truthy). -/
def processRow (st : LoopState) (r : Row) : Except String LoopState :=
  match strptime r.created, strptime r.modified with
  | none, _ => .error "bad timestamp"
  | some _, none => .error "bad timestamp"
  | some c, some m =>
    let diff : ℤ := epochSecs m - epochSecs c
    let diffs := if diff ≠ 0 then st.diffs ++ [diff] else st.diffs
    let stList := st.statusList ++ [r.status]
    if r.currency ≠ "" ∧ r.amount ≠ "" then
      match parseDecimal r.amount with
      | none => .error "bad amount"
      | some a =>
        .ok ⟨diffs, stList, st.currencyPairs ++ [(r.currency, a)],
             st.rowCount + 1⟩
    else
      .ok ⟨diffs, stList, st.currencyPairs, st.rowCount + 1⟩

/-- The row loop: process the rows in order, propagating any raised
exception. -/
def processRows : LoopState → List Row → Except String LoopState
  | st, [] => .ok st
  | st, r :: rs =>
    match processRow st r with
    | .error e => .error e
    | .ok st2 => processRows st2 rs

/-- Consecutive runs of equal values with their lengths:
`[(k, len(list(g))) for k, g in groupby(l)]`. -/
def runs : List String → List (String × Nat)
  | [] => []
  | x :: xs =>
    match runs xs with
    | [] => [(x, 1)]
    | (y, n) :: rest =>
      if x = y then (x, n + 1) :: rest else (x, 1) :: (y, n) :: rest

/-- `sorted(l)` on strings. -/
def sortLe (l : List String) : List String :=
  List.insertionSort (fun a b => a ≤ b) l

/-- `stats['statuses']`: group the collected status strings by sorting and
taking consecutive runs, and pair each distinct value with
`'%.2f' % ((group / len(stats['status'])) * 100)`. -/
def statusesOf (sts : List String) : List (String × String) :=
  (runs (sortLe sts)).map
    (fun p => (p.1, fmt2 ((p.2 : ℚ) / (sts.length : ℚ) * 100)))

/-- `reduce(lambda x, (k, v): x[k].append(v) or x, listy, defaultdict(list))`:
left fold appending each value to its key's bucket.  The dict's iteration
order is embedded as first-insertion order of the keys. -/
def insertPair (acc : List (String × List ℚ)) (kv : String × ℚ) :
    List (String × List ℚ) :=
  match acc with
  | [] => [(kv.1, [kv.2])]
  | (k, vs) :: rest =>
    if k = kv.1 then (k, vs ++ [kv.2]) :: rest
    else (k, vs) :: insertPair rest kv

def list_to_dict_multiple (l : List (String × ℚ)) : List (String × List ℚ) :=
  l.foldl insertPair []

/-- One value of the reshaped `stats['currencies']` dict:
`{'items': items, 'count': len(items), 'mean': '%.2f' % (sum(items)/len(items))}`. -/
structure Bucket where
  items : List ℚ
  count : Nat
  mean : String
deriving DecidableEq

def currenciesOf (pairs : List (String × ℚ)) : List (String × Bucket) :=
  (list_to_dict_multiple pairs).map
    (fun p => (p.1, ⟨p.2, p.2.length, fmt2 (p.2.sum / (p.2.length : ℚ))⟩))

/-- `stats['mean']`, set only when `stats['diff']` is non-empty. -/
def mkMean (diffs : List ℤ) : Option String :=
  if diffs.length ≠ 0 then
    some (fmt2 ((diffs.map (fun d => (d : ℚ))).sum / (diffs.length : ℚ)))
  else none

/-- The summary the `transactions` view hands to the template. -/
structure Stats where
  diffs : List ℤ
  mean : Option String
  statuses : List (String × String)
  currencies : List (String × Bucket)
  rowCount : Nat
deriving DecidableEq

/-- The post-loop summary computation of the `transactions` view. -/
def finalize (st : LoopState) : Stats :=
  { diffs := st.diffs
    mean := mkMean st.diffs
    statuses := statusesOf st.statusList
    currencies := currenciesOf st.currencyPairs
    rowCount := st.rowCount }

/-- The whole aggregation of the `transactions` view over the parsed CSV
rows: run the row loop, then compute mean, status distribution and
currency breakdown. -/
def aggregate (rows : List Row) : Except String Stats :=
  match processRows ⟨[], [], [], 0⟩ rows with
  | .error e => .error e
  | .ok st => .ok (finalize st)

/-- The per-row latency `(modified - created).total_seconds()`, when both
timestamps parse. -/
def rowDiff (r : Row) : Option ℤ :=
  match strptime r.created, strptime r.modified with
  | some c, some m => some (epochSecs m - epochSecs c)
  | _, _ => none

/-- What one row contributes to `stats['diff']`: its latency when both
timestamps parse and the `timedelta` is truthy (non-zero), nothing
otherwise. -/
def rowDiffContrib (r : Row) : List ℤ :=
  match rowDiff r with
  | some d => if d ≠ 0 then [d] else []
  | none => []

/-- What one row contributes to `stats['currencies']` before grouping:
its `(currency, Decimal(amount))` pair when both fields are truthy and
the amount parses. -/
def rowPairContrib (r : Row) : List (String × ℚ) :=
  if r.currency ≠ "" ∧ r.amount ≠ "" then
    match parseDecimal r.amount with
    | some a => [(r.currency, a)]
    | none => []
  else []

/-- The numeric value denoted by the `'%.2f'` percentage strings of
`statusesOf`, summed over the distribution. -/
def roundedPercSum (sts : List String) : ℚ :=
  ((runs (sortLe sts)).map
    (fun p => round2 ((p.2 : ℚ) / (sts.length : ℚ) * 100))).sum

/-- A Python value that is either `None` or a `bool`, the two shapes
`cache.get('last-build')` can produce in `get_build` (`None` on a cache
miss, a stored boolean otherwise). -/
inductive PyVal
  | none
  | bool (b : Bool)
deriving DecidableEq

/-- Python `bool(...)` on such a value: `bool(None)` is `False`. -/
def pyBool : PyVal → Bool
  | .none => false
  | .bool b => b

/-- `last = bool(cache.get('last-build'))`: always a `bool`, never
`None`. -/
def lastBuildRead (stored : PyVal) : PyVal :=
  PyVal.bool (pyBool stored)

/-- The `last-build` bookkeeping of `get_build`, given the cached value
and the freshly computed `passing`.  Returns the value left in the cache
and whether the `last != passing` transition branch fired (where the
suppressed `notify` call sits).  Mirrors the source order: the cache is
unconditionally set to `True` before the comparison, and the branches
overwrite it with `bool(passing)`. -/
def getBuildUpdate (stored : PyVal) (passing : Bool) : PyVal × Bool :=
  let last : PyVal := lastBuildRead stored
  let afterSet : PyVal := PyVal.bool true
  if last = PyVal.none then (PyVal.bool passing, false)
  else if last ≠ PyVal.bool passing then (PyVal.bool passing, true)
  else (afterSet, false)

/-- Iterate `get_build` calls: from a cached `last-build` value, feed the
successive computed `passing` booleans through `getBuildUpdate` and
record for each call whether the transition branch fired. -/
def runBuildCalls : PyVal → List Bool → List Bool
  | _, [] => []
  | stored, p :: ps =>
    let r := getBuildUpdate stored p
    r.2 :: runBuildCalls r.1 ps

/-- `passing = all(result['results'].values())` after
`result['results'] = OrderedDict(sorted(result['results'].items()))`. -/
def buildPassing (results : List (String × Bool)) : Bool :=
  ((List.insertionSort (fun a b => a.1 ≤ b.1) results).map Prod.snd).all
    (fun b => b)

/-- The two records of the spec example: 100-second latency with a USD
amount, then a zero-latency failed record with no monetary data. -/
def specRows : List Row :=
  [⟨"2024-01-01T00:00:00", "2024-01-01T00:01:40", "1", "USD", "10.00"⟩,
   ⟨"2024-01-01T00:00:00", "2024-01-01T00:00:00", "4", "", ""⟩]

/-- What the aggregation actually produces on `specRows`. -/
def specStats : Stats :=
  ⟨[100], some "100.00", [("1", "50.00"), ("4", "50.00")],
   [("USD", ⟨[10], 1, "10.00"⟩)], 2⟩

/-- Seven records with distinct statuses and equal timestamps. -/
def rows7 : List Row :=
  [⟨"2024-01-01T00:00:00", "2024-01-01T00:00:00", "0", "", ""⟩,
   ⟨"2024-01-01T00:00:00", "2024-01-01T00:00:00", "1", "", ""⟩,
   ⟨"2024-01-01T00:00:00", "2024-01-01T00:00:00", "2", "", ""⟩,
   ⟨"2024-01-01T00:00:00", "2024-01-01T00:00:00", "3", "", ""⟩,
   ⟨"2024-01-01T00:00:00", "2024-01-01T00:00:00", "4", "", ""⟩,
   ⟨"2024-01-01T00:00:00", "2024-01-01T00:00:00", "5", "", ""⟩,
   ⟨"2024-01-01T00:00:00", "2024-01-01T00:00:00", "6", "", ""⟩]

/-- A batch whose first row has a malformed `created` timestamp and
whose second row is well-formed with a status. -/
def badRows : List Row :=
  [⟨"nope", "2024-01-01T00:00:00", "1", "", ""⟩,
   ⟨"2024-01-01T00:00:00", "2024-01-01T00:00:00", "4", "", ""⟩]

/-- Two records with valid equal timestamps, one with status `"1"` and
one whose status field is empty. -/
def emptyStatusRows : List Row :=
  [⟨"2024-01-01T00:00:00", "2024-01-01T00:00:00", "1", "", ""⟩,
   ⟨"2024-01-01T00:00:00", "2024-01-01T00:00:00", "", "", ""⟩]

/-- What the aggregation actually produces on `emptyStatusRows`. -/
def emptyStatusStats : Stats :=
  ⟨[], none, [("", "50.00"), ("1", "50.00")], [], 2⟩

/-! ## Structural lemmas about the row loop -/

lemma processRow_ok (st : LoopState) (r : Row) (st2 : LoopState)
    (h : processRow st r = .ok st2) :
    st2.diffs = st.diffs ++ rowDiffContrib r ∧
    st2.statusList = st.statusList ++ [r.status] ∧
    st2.currencyPairs = st.currencyPairs ++ rowPairContrib r ∧
    st2.rowCount = st.rowCount + 1 := by
  cases hc : strptime r.created with
  | none => simp [processRow, hc] at h
  | some c =>
    cases hm : strptime r.modified with
    | none => simp [processRow, hc, hm] at h
    | some m =>
      simp only [processRow, hc, hm] at h
      simp only [rowDiffContrib, rowDiff, rowPairContrib, hc, hm]
      by_cases hca : r.currency ≠ "" ∧ r.amount ≠ ""
      · rw [if_pos hca] at h
        rw [if_pos hca]
        cases ha : parseDecimal r.amount with
        | none => rw [ha] at h; exact absurd h (by simp)
        | some a =>
          rw [ha] at h
          cases h
          by_cases hd : epochSecs m - epochSecs c ≠ 0
          · simp [if_pos hd]
          · simp [if_neg hd]
      · rw [if_neg hca] at h
        rw [if_neg hca]
        cases h
        by_cases hd : epochSecs m - epochSecs c ≠ 0
        · simp [if_pos hd]
        · simp [if_neg hd]

lemma processRow_parses (st : LoopState) (r : Row) (st2 : LoopState)
    (h : processRow st r = .ok st2) :
    strptime r.created ≠ none ∧ strptime r.modified ≠ none := by
  cases hc : strptime r.created with
  | none => simp [processRow, hc] at h
  | some c =>
    cases hm : strptime r.modified with
    | none => simp [processRow, hc, hm] at h
    | some m => exact ⟨by simp [hc], by simp [hm]⟩

lemma processRows_ok : ∀ (rows : List Row) (st0 st : LoopState),
    processRows st0 rows = .ok st →
    st.diffs = st0.diffs ++ (rows.map rowDiffContrib).flatten ∧
    st.statusList = st0.statusList ++ rows.map Row.status ∧
    st.currencyPairs = st0.currencyPairs ++ (rows.map rowPairContrib).flatten ∧
    st.rowCount = st0.rowCount + rows.length := by
  intro rows
  induction rows with
  | nil =>
    intro st0 st h
    simp only [processRows] at h
    cases h
    simp
  | cons r rs ih =>
    intro st0 st h
    simp only [processRows] at h
    cases hr : processRow st0 r with
    | error e => rw [hr] at h; exact absurd h (by simp)
    | ok st1 =>
      rw [hr] at h
      obtain ⟨h1, h2, h3, h4⟩ := processRow_ok _ _ _ hr
      obtain ⟨g1, g2, g3, g4⟩ := ih st1 st h
      refine ⟨?_, ?_, ?_, ?_⟩
      · simp [g1, h1, List.append_assoc]
      · simp [g2, h2, List.append_assoc]
      · simp [g3, h3, List.append_assoc]
      · simp [g4, h4]; omega

lemma aggregate_ok (rows : List Row) (st : Stats) (h : aggregate rows = .ok st) :
    st.diffs = (rows.map rowDiffContrib).flatten ∧
    st.mean = mkMean st.diffs ∧
    st.statuses = statusesOf (rows.map Row.status) ∧
    st.currencies = currenciesOf ((rows.map rowPairContrib).flatten) ∧
    st.rowCount = rows.length := by
  unfold aggregate at h
  cases hp : processRows ⟨[], [], [], 0⟩ rows with
  | error e => rw [hp] at h; exact absurd h (by simp)
  | ok st1 =>
    rw [hp] at h
    obtain ⟨g1, g2, g3, g4⟩ := processRows_ok rows _ _ hp
    simp only [List.nil_append] at g1 g2 g3
    cases h
    refine ⟨g1, rfl, ?_, ?_, ?_⟩
    · show statusesOf st1.statusList = _
      rw [g2]
    · show currenciesOf st1.currencyPairs = _
      rw [g3]
    · show st1.rowCount = _
      simpa using g4

/-! ## Lemmas about `runs` and sorting -/

lemma runs_cons (x : String) (xs : List String) :
    ∃ n rest, runs (x :: xs) = (x, n) :: rest := by
  cases hrx : runs xs with
  | nil => exact ⟨1, [], by simp [runs, hrx]⟩
  | cons q rest =>
    obtain ⟨y, n⟩ := q
    by_cases hxy : x = y
    · subst hxy
      exact ⟨n + 1, rest, by simp [runs, hrx]⟩
    · exact ⟨1, (y, n) :: rest, by simp [runs, hrx, hxy]⟩

lemma runs_eq_nil (l : List String) : runs l = [] ↔ l = [] := by
  cases l with
  | nil => simp [runs]
  | cons x xs =>
    obtain ⟨n, rest, he⟩ := runs_cons x xs
    simp [he]

lemma runs_sum : ∀ l : List String, ((runs l).map Prod.snd).sum = l.length := by
  intro l
  induction l with
  | nil => simp [runs]
  | cons x xs ih =>
    cases hrx : runs xs with
    | nil =>
      have hx : xs = [] := (runs_eq_nil xs).mp hrx
      subst hx
      simp [runs]
    | cons q rest =>
      obtain ⟨y, n⟩ := q
      rw [hrx] at ih
      simp only [runs, hrx]
      by_cases hxy : x = y
      · subst hxy
        rw [if_pos rfl]
        simp at ih ⊢
        omega
      · rw [if_neg hxy]
        simp at ih ⊢
        omega

lemma runs_keys_subset : ∀ (l : List String) (s : String),
    s ∈ (runs l).map Prod.fst → s ∈ l := by
  intro l
  induction l with
  | nil => simp [runs]
  | cons x xs ih =>
    intro s hs
    cases hrx : runs xs with
    | nil =>
      rw [hrx] at ih
      simp only [runs, hrx] at hs
      simp at hs
      simp [hs]
    | cons q rest =>
      obtain ⟨y, n⟩ := q
      rw [hrx] at ih
      simp only [runs, hrx] at hs
      by_cases hxy : x = y
      · subst hxy
        rw [if_pos rfl] at hs
        simp at hs
        rcases hs with rfl | hs
        · simp
        · have : s ∈ xs := ih s (by simp [hs])
          simp [this]
      · rw [if_neg hxy] at hs
        simp at hs
        rcases hs with rfl | rfl | hs
        · simp
        · have : s ∈ xs := ih s (by simp)
          simp [this]
        · have : s ∈ xs := ih s (by simp [hs])
          simp [this]

lemma runs_keys_complete : ∀ (l : List String) (s : String),
    s ∈ l → ∃ n, (s, n) ∈ runs l := by
  intro l
  induction l with
  | nil => simp
  | cons x xs ih =>
    intro s hs
    cases hrx : runs xs with
    | nil =>
      have hx : xs = [] := (runs_eq_nil xs).mp hrx
      subst hx
      simp at hs
      subst hs
      exact ⟨1, by simp [runs]⟩
    | cons q rest =>
      obtain ⟨y, n⟩ := q
      rw [hrx] at ih
      simp only [runs, hrx]
      by_cases hxy : x = y
      · subst hxy
        rw [if_pos rfl]
        rcases List.mem_cons.mp hs with rfl | hs2
        · exact ⟨n + 1, by simp⟩
        · obtain ⟨m, hm⟩ := ih s hs2
          rcases List.mem_cons.mp hm with he | hm2
          · have : s = x := by cases he; rfl
            subst this
            exact ⟨n + 1, by simp⟩
          · exact ⟨m, by simp [hm2]⟩
      · rw [if_neg hxy]
        rcases List.mem_cons.mp hs with rfl | hs2
        · exact ⟨1, by simp⟩
        · obtain ⟨m, hm⟩ := ih s hs2
          exact ⟨m, by simp [hm]⟩

lemma runs_sorted_facts : ∀ l : List String,
    l.Sorted (fun a b => a ≤ b) →
    ((runs l).map Prod.fst).Nodup ∧ ∀ p ∈ runs l, p.2 = l.count p.1 := by
  intro l
  induction l with
  | nil => intro _; simp [runs]
  | cons x xs ih =>
    intro hs
    have hxs : xs.Sorted (fun a b => a ≤ b) := (List.sorted_cons.mp hs).2
    have hall : ∀ b ∈ xs, x ≤ b := (List.sorted_cons.mp hs).1
    obtain ⟨hnd, hcount⟩ := ih hxs
    cases hrx : runs xs with
    | nil =>
      have hx : xs = [] := (runs_eq_nil xs).mp hrx
      subst hx
      constructor
      · simp [runs]
      · intro p hp
        simp [runs] at hp
        subst hp
        simp
    | cons q rest =>
      obtain ⟨y, n⟩ := q
      rw [hrx] at hnd hcount
      have hxs_ne : xs ≠ [] := by
        intro hh
        rw [hh] at hrx
        simp [runs] at hrx
      obtain ⟨z, t, hz⟩ := List.exists_cons_of_ne_nil hxs_ne
      have hyz : y = z := by
        obtain ⟨n2, rest2, he2⟩ := runs_cons z t
        rw [hz, he2] at hrx
        cases hrx
        rfl
      have hzxs : z ∈ xs := by rw [hz]; exact List.mem_cons_self z t
      simp only [runs, hrx]
      by_cases hxy : x = y
      · subst hxy
        rw [if_pos rfl]
        have hnd2 : (∀ k : ℕ, (x, k) ∉ rest) ∧ (rest.map Prod.fst).Nodup := by
          simpa using hnd
        constructor
        · simpa using hnd2
        · intro p hp
          obtain ⟨s, k⟩ := p
          rcases List.mem_cons.mp hp with he | hp2
          · obtain ⟨rfl, rfl⟩ : x = s ∧ n + 1 = k := by cases he; exact ⟨rfl, rfl⟩
            have hn : n = xs.count x := by simpa using hcount (x, n) (by simp)
            simp [hn]
          · have hne : s ≠ x := fun hh => hnd2.1 k (hh ▸ hp2)
            have hc : k = xs.count s := by simpa using hcount (s, k) (by simp [hp2])
            simpa [hc] using (List.count_cons_of_ne hne xs).symm
      · rw [if_neg hxy]
        have hxnotin : x ∉ xs := by
          intro hx
          rw [hz] at hx
          rcases List.mem_cons.mp hx with rfl | hxt
          · exact hxy hyz.symm
          · have h1 : x ≤ z := hall z hzxs
            have h2 : z ≤ x := (List.sorted_cons.mp (hz ▸ hxs)).1 x hxt
            exact hxy (by rw [le_antisymm h1 h2, hyz])
        have hxkeys : x ∉ ((y, n) :: rest).map Prod.fst := by
          intro hc
          exact hxnotin (runs_keys_subset xs x (by rw [hrx]; exact hc))
        constructor
        · simp only [List.map_cons] at hxkeys hnd ⊢
          exact List.nodup_cons.mpr ⟨hxkeys, hnd⟩
        · intro p hp
          obtain ⟨s, k⟩ := p
          rcases List.mem_cons.mp hp with he | hp2
          · obtain ⟨rfl, rfl⟩ : x = s ∧ 1 = k := by cases he; exact ⟨rfl, rfl⟩
            simp [List.count_eq_zero_of_not_mem hxnotin]
          · have hkey : s ∈ ((y, n) :: rest).map Prod.fst :=
              List.mem_map_of_mem Prod.fst hp2
            have hmem : s ∈ xs := runs_keys_subset xs s (by rw [hrx]; exact hkey)
            have hne : s ≠ x := by
              intro hh
              rw [hh] at hmem
              exact hxnotin hmem
            have hc : k = xs.count s := by simpa using hcount (s, k) hp2
            simpa [hc] using (List.count_cons_of_ne hne xs).symm

lemma sortLe_perm (l : List String) : (sortLe l).Perm l :=
  List.perm_insertionSort _ l

lemma sortLe_sorted (l : List String) :
    (sortLe l).Sorted (fun a b => a ≤ b) :=
  List.sorted_insertionSort _ l

/-! ## Lemmas about currency grouping and rounding -/

lemma insertPair_nonempty : ∀ (acc : List (String × List ℚ)) (kv : String × ℚ),
    (∀ p ∈ acc, p.2 ≠ []) → ∀ p ∈ insertPair acc kv, p.2 ≠ [] := by
  intro acc
  induction acc with
  | nil =>
    intro kv _ p hp
    simp [insertPair] at hp
    rw [hp]
    simp
  | cons a rest ih =>
    obtain ⟨k, vs⟩ := a
    intro kv h p hp
    simp only [insertPair] at hp
    by_cases hk : k = kv.1
    · rw [if_pos hk] at hp
      rcases List.mem_cons.mp hp with rfl | hp2
      · simp
      · exact h p (by simp [hp2])
    · rw [if_neg hk] at hp
      rcases List.mem_cons.mp hp with rfl | hp2
      · exact h (k, vs) (by simp)
      · exact ih kv (fun q hq => h q (by simp [hq])) p hp2

lemma ltdm_nonempty (l : List (String × ℚ)) :
    ∀ p ∈ list_to_dict_multiple l, p.2 ≠ [] := by
  suffices h : ∀ (l : List (String × ℚ)) (acc : List (String × List ℚ)),
      (∀ p ∈ acc, p.2 ≠ []) → ∀ p ∈ l.foldl insertPair acc, p.2 ≠ [] by
    exact h l [] (by simp)
  intro l
  induction l with
  | nil =>
    intro acc hacc
    simpa using hacc
  | cons kv rest ih =>
    intro acc hacc
    simp only [List.foldl_cons]
    exact ih (insertPair acc kv) (insertPair_nonempty acc kv hacc)

lemma round2_sub_abs (q : ℚ) : |round2 q - q| ≤ 1 / 200 := by
  simp only [round2, hundredths, abs_le]
  have h1 : ((⌊q * 100 + 1 / 2⌋ : ℤ) : ℚ) ≤ q * 100 + 1 / 2 := Int.floor_le _
  have h2 : q * 100 + 1 / 2 - 1 < ((⌊q * 100 + 1 / 2⌋ : ℤ) : ℚ) :=
    Int.sub_one_lt_floor _
  constructor <;> linarith

lemma sum_round2_bound : ∀ l : List ℚ,
    |(l.map round2).sum - l.sum| ≤ (l.length : ℚ) / 200 := by
  intro l
  induction l with
  | nil => simp
  | cons x xs ih =>
    simp only [List.map_cons, List.sum_cons, List.length_cons]
    have h1 := round2_sub_abs x
    have e : round2 x + (xs.map round2).sum - (x + xs.sum)
        = (round2 x - x) + ((xs.map round2).sum - xs.sum) := by ring
    rw [e]
    push_cast
    calc |(round2 x - x) + ((xs.map round2).sum - xs.sum)|
        ≤ |round2 x - x| + |(xs.map round2).sum - xs.sum| := abs_add _ _
      _ ≤ 1 / 200 + (xs.length : ℚ) / 200 := add_le_add h1 ih
      _ = ((xs.length : ℚ) + 1) / 200 := by ring

lemma map_ratCast_snd_sum : ∀ l : List (String × Nat),
    (l.map (fun p => (p.2 : ℚ))).sum = (((l.map Prod.snd).sum : ℕ) : ℚ) := by
  intro l
  induction l with
  | nil => simp
  | cons a rest ih => simp [ih]

lemma perc_sum_exact (l : List (String × Nat)) (L : ℚ) (hL : L ≠ 0)
    (hsum : (((l.map Prod.snd).sum : ℕ) : ℚ) = L) :
    (l.map (fun p => (p.2 : ℚ) / L * 100)).sum = 100 := by
  have e : l.map (fun p => (p.2 : ℚ) / L * 100)
      = l.map (fun p => (p.2 : ℚ) * (100 / L)) := by
    apply List.map_congr_left
    intro p _
    rw [div_mul_eq_mul_div, mul_div_assoc]
  rw [e, List.sum_map_mul_right, map_ratCast_snd_sum, hsum]
  field_simp

lemma roundedPercSum_bound (sts : List String) (h : sts ≠ []) :
    |roundedPercSum sts - 100| ≤ ((runs (sortLe sts)).length : ℚ) / 200 := by
  have hL : ((sts.length : ℕ) : ℚ) ≠ 0 := by
    simp only [ne_eq, Nat.cast_eq_zero]
    exact fun hh => h (List.length_eq_zero.mp hh)
  have hsum : ((((runs (sortLe sts)).map Prod.snd).sum : ℕ) : ℚ)
      = ((sts.length : ℕ) : ℚ) := by
    rw [runs_sum (sortLe sts), (sortLe_perm sts).length_eq]
  have hexact := perc_sum_exact (runs (sortLe sts)) _ hL hsum
  have hb := sum_round2_bound
    ((runs (sortLe sts)).map (fun p => (p.2 : ℚ) / ((sts.length : ℕ) : ℚ) * 100))
  rw [hexact, List.map_map, List.length_map] at hb
  simpa [roundedPercSum, Function.comp] using hb

/-! ## Claim theorems -/

lemma processRows_bad : ∀ (rows : List Row) (st0 : LoopState),
    (∃ r ∈ rows, strptime r.created = none ∨ strptime r.modified = none) →
    ∀ st, processRows st0 rows ≠ .ok st := by
  intro rows
  induction rows with
  | nil =>
    intro st0 h st
    simp at h
  | cons r rs ih =>
    intro st0 h st hok
    simp only [processRows] at hok
    cases hr : processRow st0 r with
    | error e => rw [hr] at hok; exact absurd hok (by simp)
    | ok st1 =>
      rw [hr] at hok
      obtain ⟨hc, hm⟩ := processRow_parses _ _ _ hr
      rcases h with ⟨r2, hr2mem, hbad⟩
      rcases List.mem_cons.mp hr2mem with rfl | hmem
      · rcases hbad with hb | hb
        · exact hc hb
        · exact hm hb
      · exact ih st1 ⟨r2, hmem, hbad⟩ st hok

/-- C1 (amended): on a successful aggregation, every record whose two
timestamps parse and whose signed difference is NON-ZERO (negative
included) has that difference appended to `latencySeconds`; a zero
difference is skipped, because a zero `timedelta` is falsy in
`if row['diff']:`; and the mean field is the 2-decimal arithmetic mean of
exactly the collected differences.  The original claim, which requires
zero differences to be included and the spec example to average
`[100, 0]` to `"50.00"`, is refuted by `c1_counterexample`. -/
theorem c1_amended (rows : List Row) (st : Stats) (h : aggregate rows = .ok st) :
    (∀ r ∈ rows, ∀ d, rowDiff r = some d → d ≠ 0 → d ∈ st.diffs) ∧
    (∀ d ∈ st.diffs, d ≠ 0) ∧
    st.mean = mkMean st.diffs := by
  obtain ⟨h1, h2, _, _, _⟩ := aggregate_ok rows st h
  refine ⟨?_, ?_, h2⟩
  · intro r hr d hd hdne
    rw [h1, List.mem_flatten]
    exact ⟨rowDiffContrib r, List.mem_map_of_mem _ hr,
      by simp [rowDiffContrib, hd, hdne]⟩
  · intro d hd
    rw [h1, List.mem_flatten] at hd
    obtain ⟨l, hl, hdl⟩ := hd
    obtain ⟨r, _, rfl⟩ := List.mem_map.mp hl
    unfold rowDiffContrib at hdl
    cases hrd : rowDiff r with
    | none => rw [hrd] at hdl; simp at hdl
    | some d2 =>
      rw [hrd] at hdl
      by_cases hz : d2 ≠ 0
      · simp [hz] at hdl
        rw [hdl]
        exact hz
      · simp [hz] at hdl

/-- C1 counterexample: on the spec example rows the second record's zero
difference is NOT appended, so `latencySeconds` is `[100]`, not
`[100, 0]`, and the mean is `"100.00"`, not `"50.00"`. -/
theorem c1_counterexample :
    aggregate specRows = .ok specStats ∧
    specStats.diffs ≠ [100, 0] ∧ specStats.mean ≠ some "50.00" :=
  ⟨by with_unfolding_all rfl, by decide, by decide⟩

/-- C1 witness: the amended theorem applied to the spec example rows. -/
theorem c1_amended_witness :
    (100 : ℤ) ∈ specStats.diffs ∧ specStats.mean = mkMean specStats.diffs := by
  have h := c1_amended specRows specStats (by with_unfolding_all rfl)
  refine ⟨?_, h.2.2⟩
  exact h.1 ⟨"2024-01-01T00:00:00", "2024-01-01T00:01:40", "1", "USD", "10.00"⟩
    (by decide) 100 (by decide) (by decide)

/-- C2 (amended): a timestamp that fails to parse is FATAL to the whole
batch: the `ValueError` raised by `strptime` propagates out of the row
loop, so the aggregation returns an error and no row's status or
currency is counted, contrary to the claim's non-fatal per-row error
behaviour (refuted at a concrete input by `c2_counterexample`). -/
theorem c2_amended (rows : List Row)
    (h : ∃ r ∈ rows, strptime r.created = none ∨ strptime r.modified = none) :
    ∀ st, aggregate rows ≠ .ok st := by
  intro st hok
  unfold aggregate at hok
  cases hp : processRows ⟨[], [], [], 0⟩ rows with
  | error e => rw [hp] at hok; exact absurd hok (by simp)
  | ok st1 => exact processRows_bad rows _ h st1 hp

/-- C2 counterexample: a batch whose first row has a malformed `created`
aborts with an error, so the remaining well-formed row's status is never
counted and no summary is produced. -/
theorem c2_counterexample : aggregate badRows = .error "bad timestamp" := by rfl

/-- C2 witness: the amended theorem applied to the concrete bad batch. -/
theorem c2_amended_witness : aggregate badRows ≠ .ok ⟨[], none, [], [], 0⟩ :=
  c2_amended badRows
    ⟨⟨"nope", "2024-01-01T00:00:00", "1", "", ""⟩, by decide, Or.inl (by rfl)⟩ _

/-- C3 (amended): records with no status value are NOT excluded: every
row's status string (the empty string when the field is empty) is
grouped, the distribution has exactly one entry per distinct status
string occurring among the rows — the empty string included — and each
entry's percentage is `100 * count / totalRows` over ALL rows, formatted
to 2 decimals.  The original exclusion of empty statuses is refuted by
`c3_counterexample`. -/
theorem c3_amended (rows : List Row) (st : Stats) (h : aggregate rows = .ok st) :
    (∀ s, (∃ p, (s, p) ∈ st.statuses) ↔ s ∈ rows.map Row.status) ∧
    (∀ s p, (s, p) ∈ st.statuses →
      p = fmt2 (((rows.map Row.status).count s : ℚ) / (rows.length : ℚ) * 100)) ∧
    (st.statuses.map Prod.fst).Nodup := by
  obtain ⟨_, _, h3, _, _⟩ := aggregate_ok rows st h
  obtain ⟨hnd, hcount⟩ :=
    runs_sorted_facts (sortLe (rows.map Row.status)) (sortLe_sorted _)
  rw [h3]
  unfold statusesOf
  refine ⟨?_, ?_, ?_⟩
  · intro s
    constructor
    · rintro ⟨p, hp⟩
      obtain ⟨q, hq, he⟩ := List.mem_map.mp hp
      have hq1 : q.1 = s := congrArg Prod.fst he
      have hk : s ∈ (runs (sortLe (rows.map Row.status))).map Prod.fst :=
        hq1 ▸ List.mem_map_of_mem Prod.fst hq
      exact (sortLe_perm _).mem_iff.mp (runs_keys_subset _ s hk)
    · intro hs
      have hs2 : s ∈ sortLe (rows.map Row.status) := (sortLe_perm _).mem_iff.mpr hs
      obtain ⟨n, hn⟩ := runs_keys_complete _ s hs2
      exact ⟨fmt2 ((n : ℚ) / ((rows.map Row.status).length : ℚ) * 100),
        List.mem_map.mpr ⟨(s, n), hn, rfl⟩⟩
  · intro s p hp
    obtain ⟨q, hq, he⟩ := List.mem_map.mp hp
    obtain ⟨s2, n⟩ := q
    obtain ⟨rfl, rfl⟩ :
        s2 = s ∧ fmt2 ((n : ℚ) / ((rows.map Row.status).length : ℚ) * 100) = p := by
      cases he
      exact ⟨rfl, rfl⟩
    have hc : n = (sortLe (rows.map Row.status)).count s2 := by
      simpa using hcount (s2, n) hq
    rw [hc, (sortLe_perm (rows.map Row.status)).count_eq, List.length_map]
  · rw [List.map_map]
    have e : (Prod.fst ∘ fun p : String × Nat =>
        (p.1, fmt2 ((p.2 : ℚ) / ((rows.map Row.status).length : ℚ) * 100)))
        = Prod.fst := by
      funext q
      rfl
    rw [e]
    exact hnd

/-- C3 counterexample: a record with an empty status forms its own `""`
group and counts in the denominator, so with one `"1"` row and one
empty-status row the distribution is `[("", "50.00"), ("1", "50.00")]`,
not `[("1", "100.00")]` as the claim's exclusion rule would give. -/
theorem c3_counterexample :
    (aggregate emptyStatusRows).map Stats.statuses
      = .ok [("", "50.00"), ("1", "50.00")] ∧
    ([("", "50.00"), ("1", "50.00")] : List (String × String))
      ≠ [("1", "100.00")] :=
  ⟨by with_unfolding_all rfl, by decide⟩

/-- C3 witness: the amended theorem applied to the empty-status rows. -/
theorem c3_amended_witness :
    "50.00" = fmt2 (((emptyStatusRows.map Row.status).count "" : ℚ)
      / (emptyStatusRows.length : ℚ) * 100) ∧
    (emptyStatusStats.statuses.map Prod.fst).Nodup := by
  have h := c3_amended emptyStatusRows emptyStatusStats (by with_unfolding_all rfl)
  exact ⟨h.2.1 "" "50.00" (by decide), h.2.2⟩

/-- C4: evaluated on the claim's scenario — persisted overall status
`True`, then three successive polls that each compute `passing = False` —
the transition branch fires on calls 1 AND 3, not exactly once: the
unconditional `cache.set('last-build', True)` placed before the
comparison resets the persisted value to `True` on every call whose
comparison branch does not fire, so the PASSING→FAILING transition is
re-detected on every second call while the status stays failing.  The
claim (and the spec's intent of detecting the change exactly once) is
right; the stray `cache.set` line in the code is the bug. -/
theorem c4_transition_refires :
    runBuildCalls (PyVal.bool true) [false, false, false] = [true, false, true] := by
  rfl

/-- C5: on a successful aggregation, every currency bucket has
`count = len(items)`, a non-empty `items` list (keys only exist for
currencies that contributed at least one parsed amount, so the mean's
denominator is never zero), and `meanAmount = '%.2f' % (sum(items)/count)`. -/
theorem c5_currency_buckets (rows : List Row) (st : Stats)
    (h : aggregate rows = .ok st) :
    ∀ p ∈ st.currencies, p.2.count = p.2.items.length ∧ p.2.items ≠ [] ∧
      p.2.mean = fmt2 (p.2.items.sum / (p.2.count : ℚ)) := by
  obtain ⟨_, _, _, h4, _⟩ := aggregate_ok rows st h
  rw [h4]
  intro p hp
  unfold currenciesOf at hp
  obtain ⟨q, hq, rfl⟩ := List.mem_map.mp hp
  exact ⟨rfl, ltdm_nonempty _ q hq, rfl⟩

/-- C5 witness: the bucket invariants at the spec example's USD bucket. -/
theorem c5_witness :
    (Bucket.mk [10] 1 "10.00").count = (Bucket.mk [10] 1 "10.00").items.length ∧
    (Bucket.mk [10] 1 "10.00").items ≠ [] ∧
    (Bucket.mk [10] 1 "10.00").mean
      = fmt2 ((Bucket.mk [10] 1 "10.00").items.sum
        / ((Bucket.mk [10] 1 "10.00").count : ℚ)) :=
  c5_currency_buckets specRows specStats (by with_unfolding_all rfl)
    ("USD", ⟨[10], 1, "10.00"⟩) (List.mem_singleton_self _)

/-- C6 (amended): for a non-empty batch the sum of the rounded
percentages differs from 100 by at most `0.005` per distinct status
value (`k / 200` for `k` entries), not by at most `0.01` in general: with
seven distinct statuses the sum reaches `100.03` (`c6_counterexample`).
The `± 0.01` tolerance does hold when there are at most two distinct
status values. -/
theorem c6_amended (rows : List Row) (st : Stats) (h : aggregate rows = .ok st)
    (hne : rows ≠ []) :
    |roundedPercSum (rows.map Row.status) - 100| ≤ (st.statuses.length : ℚ) / 200 := by
  obtain ⟨_, _, h3, _, _⟩ := aggregate_ok rows st h
  have hlen : st.statuses.length = (runs (sortLe (rows.map Row.status))).length := by
    rw [h3]
    unfold statusesOf
    rw [List.length_map]
  rw [hlen]
  exact roundedPercSum_bound _ (by simpa using hne)

/-- C6 counterexample: seven records with seven distinct statuses each
round to `"14.29"`, so the rounded percentages sum to `100.03`, which is
outside the claimed `100.00 ± 0.01` tolerance. -/
theorem c6_counterexample :
    (aggregate rows7).map Stats.statuses = .ok
      [("0", "14.29"), ("1", "14.29"), ("2", "14.29"), ("3", "14.29"),
       ("4", "14.29"), ("5", "14.29"), ("6", "14.29")] ∧
    roundedPercSum (rows7.map Row.status) = 10003 / 100 ∧
    ¬ (|(10003 : ℚ) / 100 - 100| ≤ 1 / 100) :=
  ⟨by with_unfolding_all rfl, by with_unfolding_all rfl, by norm_num [abs_le]⟩

/-- C6 witness: the amended bound applied to a concrete two-status batch. -/
theorem c6_amended_witness :
    |roundedPercSum (emptyStatusRows.map Row.status) - 100|
      ≤ (emptyStatusStats.statuses.length : ℚ) / 200 :=
  c6_amended emptyStatusRows emptyStatusStats (by with_unfolding_all rfl) (by decide)

/-- C7: the overall build status is the logical AND of the per-job
booleans (sorting the jobs for display does not change it), and the
empty mapping is vacuously passing, matching `all([])`. -/
theorem c7_overall_and :
    (∀ results : List (String × Bool),
      (buildPassing results = true ↔ ∀ x ∈ results, x.2 = true)) ∧
    buildPassing [] = true := by
  constructor
  · intro results
    unfold buildPassing
    rw [List.all_eq_true]
    constructor
    · intro h x hx
      exact h x.2 (List.mem_map_of_mem Prod.snd
        ((List.perm_insertionSort _ results).mem_iff.mpr hx))
    · intro h b hb
      obtain ⟨x, hx, rfl⟩ := List.mem_map.mp hb
      exact h x ((List.perm_insertionSort _ results).mem_iff.mp hx)
  · rfl

/-- C7 witness: the AND fold evaluated at a concrete all-passing poll. -/
theorem c7_witness : buildPassing [("jobA", true), ("jobB", true)] = true :=
  (c7_overall_and.1 _).mpr (by decide)

/-- C8: the empty batch aggregates without error to zero rows, an empty
latency list, no mean field, an empty status distribution and an empty
currency breakdown. -/
theorem c8_empty_input : aggregate [] = .ok ⟨[], none, [], [], 0⟩ := by rfl

/-- C9: aggregation is deterministic — it is a pure function of the
input row sequence (no hidden or time-dependent state in the embedding),
so two runs on the same input produce identical summaries. -/
theorem c9_deterministic (rows : List Row) (st1 st2 : Stats)
    (h1 : aggregate rows = .ok st1) (h2 : aggregate rows = .ok st2) :
    st1 = st2 := by
  rw [h1] at h2
  exact Except.ok.inj h2

/-- C9 witness: determinism instantiated at the spec example rows. -/
theorem c9_witness : specStats = specStats :=
  c9_deterministic specRows specStats specStats (by with_unfolding_all rfl)
    (by with_unfolding_all rfl)

/-- C10: `last = bool(cache.get('last-build'))` is always a boolean and
never `None`, for every cache state, so the `if last is None`
initialization branch is unreachable and a cache miss behaves exactly
like a stored `False`. -/
theorem c10_last_never_none :
    ∀ (stored : PyVal) (passing : Bool),
      lastBuildRead stored ≠ PyVal.none ∧
      getBuildUpdate PyVal.none passing = getBuildUpdate (PyVal.bool false) passing := by
  intro stored passing
  constructor
  · cases stored <;> simp [lastBuildRead, pyBool]
  · rfl

/-- C10 witness: the cache-miss case evaluated concretely. -/
theorem c10_witness :
    lastBuildRead PyVal.none ≠ PyVal.none ∧
    getBuildUpdate PyVal.none true = getBuildUpdate (PyVal.bool false) true :=
  c10_last_never_none PyVal.none true
